import Mathlib

/-!
Verification of `proto_collect_deps.py`, the protobuf dependency-closure
extractor.  The Python source is shallowly embedded: file descriptors become
a structure, the worklist loop of `_collect_import_closure` becomes a
fuel-indexed recursion (the fuel passed by the wrapper is a potential-function
bound proved sufficient), the filesystem touched by `_copy_files` becomes an
association list from paths to contents, and `main` becomes a pure function
from its (already-absolutised) arguments and the outcome of the protoc
invocation to an exit result, captured output and final filesystem.
Path separator `os.sep` is modelled as `"/"`.
-/

/-- One compiled `.proto` file, as in the protobuf `FileDescriptorProto`:
a `name` (path relative to the proto root) and the list of names of the
files it imports. -/
structure FileDescriptorProto where
  name : String
  dependency : List String
deriving DecidableEq

/-- The index `by_name = {f.name: f for f in file_descs}` of the Python
source: on duplicate names the later descriptor wins, as in a dict
comprehension. -/
def byName (fds : List FileDescriptorProto) (n : String) : Option FileDescriptorProto :=
  fds.reverse.find? (fun f => f.name == n)

/-- Every name that can ever be pushed on the worklist by a dependency edge. -/
def allDeps (fds : List FileDescriptorProto) : Finset String :=
  (fds.flatMap (fun f => f.dependency)).toFinset

/-- The finite universe of names the traversal starting at `entry` can see. -/
def nameUniverse (fds : List FileDescriptorProto) (entry : String) : Finset String :=
  insert entry (allDeps fds)

/-- Number of outgoing dependency edges of `x` (0 when `x` has no descriptor). -/
def degOut (fds : List FileDescriptorProto) (x : String) : Nat :=
  match byName fds x with
  | none => 0
  | some f => f.dependency.length

/-- Potential of a loop state: each pending queue entry costs 1, and each
not-yet-visited name of the universe costs 1 plus its out-degree.  Every
iteration of the Python `while` loop strictly decreases this quantity. -/
def fuelPhi (fds : List FileDescriptorProto) (entry : String)
    (needed : Finset String) (queue : List String) : Nat :=
  queue.length + ((nameUniverse fds entry \ needed).sum (fun x => 1 + degOut fds x))

/-- The body of the `while queue:` loop of `_collect_import_closure`.
The Lean list is the Python list reversed, so `queue.pop()` is taking the
head and `queue.append(dep)` for `dep in f.dependency` prepends
`f.dependency.reverse`. -/
def closureAux (fds : List FileDescriptorProto) :
    Nat → Finset String → List String → Finset String
  | 0, needed, _ => needed
  | _ + 1, needed, [] => needed
  | fuel + 1, needed, name :: rest =>
    if name ∈ needed then
      closureAux fds fuel needed rest
    else
      match byName fds name with
      | none => closureAux fds fuel (insert name needed) rest
      | some f => closureAux fds fuel (insert name needed) (f.dependency.reverse ++ rest)

/-- `_collect_import_closure(file_descs, entry_relpath)` of the source: run
the worklist loop from `needed = set()`, `queue = [entry_relpath]`, with
enough fuel for the loop to drain its queue. -/
def _collect_import_closure (fds : List FileDescriptorProto) (entry : String) : Finset String :=
  closureAux fds (fuelPhi fds entry ∅ [entry]) ∅ [entry]

/-- One dependency edge: `b` appears in the dependency list of the descriptor
that the index associates to `a` (so edges leave only names present in the
descriptor set). -/
def depStep (fds : List FileDescriptorProto) (a b : String) : Prop :=
  ∃ f, byName fds a = some f ∧ b ∈ f.dependency

/-- `x` is connected to `entry` by a directed path of dependency edges
(including the empty path). -/
def reaches (fds : List FileDescriptorProto) (entry x : String) : Prop :=
  Relation.ReflTransGen (depStep fds) entry x

lemma byName_mem {fds : List FileDescriptorProto} {n : String} {f : FileDescriptorProto}
    (h : byName fds n = some f) : f ∈ fds := by
  unfold byName at h
  exact List.mem_reverse.mp (List.mem_of_find?_eq_some h)

lemma mem_allDeps {fds : List FileDescriptorProto} {f : FileDescriptorProto} {d : String}
    (hf : f ∈ fds) (hd : d ∈ f.dependency) : d ∈ allDeps fds := by
  unfold allDeps
  rw [List.mem_toFinset, List.mem_flatMap]
  exact ⟨f, hf, hd⟩

lemma subset_closureAux (fds : List FileDescriptorProto) :
    ∀ (fuel : Nat) (needed : Finset String) (queue : List String),
      needed ⊆ closureAux fds fuel needed queue := by
  intro fuel
  induction fuel with
  | zero => intro needed queue; rw [closureAux]
  | succ n ih =>
    intro needed queue
    cases queue with
    | nil => rw [closureAux]
    | cons name rest =>
      rw [closureAux]
      by_cases h : name ∈ needed
      · simp only [h, if_true]
        exact ih needed rest
      · simp only [h, if_false]
        cases hb : byName fds name with
        | none =>
          exact subset_trans (Finset.subset_insert name needed) (ih _ rest)
        | some f =>
          exact subset_trans (Finset.subset_insert name needed) (ih _ _)

lemma closureAux_sound (fds : List FileDescriptorProto) (entry : String) :
    ∀ (fuel : Nat) (needed : Finset String) (queue : List String),
      (∀ x ∈ needed, reaches fds entry x) →
      (∀ x ∈ queue, reaches fds entry x) →
      ∀ x ∈ closureAux fds fuel needed queue, reaches fds entry x := by
  intro fuel
  induction fuel with
  | zero =>
    intro needed queue hn _ x hx
    rw [closureAux] at hx
    exact hn x hx
  | succ n ih =>
    intro needed queue hn hq x hx
    cases queue with
    | nil =>
      rw [closureAux] at hx
      exact hn x hx
    | cons name rest =>
      rw [closureAux] at hx
      by_cases h : name ∈ needed
      · simp only [h, if_true] at hx
        exact ih needed rest hn (fun y hy => hq y (List.mem_cons_of_mem _ hy)) x hx
      · simp only [h, if_false] at hx
        have hname : reaches fds entry name := hq name (List.mem_cons_self _ _)
        have hn' : ∀ y ∈ insert name needed, reaches fds entry y := by
          intro y hy
          rcases Finset.mem_insert.mp hy with hy | hy
          · exact hy ▸ hname
          · exact hn y hy
        cases hb : byName fds name with
        | none =>
          rw [hb] at hx
          exact ih _ rest hn' (fun y hy => hq y (List.mem_cons_of_mem _ hy)) x hx
        | some f =>
          rw [hb] at hx
          refine ih _ _ hn' ?_ x hx
          intro y hy
          rcases List.mem_append.mp hy with hy | hy
          · exact Relation.ReflTransGen.tail hname ⟨f, hb, List.mem_reverse.mp hy⟩
          · exact hq y (List.mem_cons_of_mem _ hy)

/-- Loop invariant: every dependency of an already-visited name is itself
visited or still pending on the queue. -/
def closedInv (fds : List FileDescriptorProto)
    (needed : Finset String) (queue : List String) : Prop :=
  ∀ x ∈ needed, ∀ f, byName fds x = some f → ∀ d ∈ f.dependency, d ∈ needed ∨ d ∈ queue

lemma sdiff_insert_eq_erase {U needed : Finset String} {a : String} :
    U \ insert a needed = (U \ needed).erase a := by
  ext x
  simp only [Finset.mem_sdiff, Finset.mem_insert, Finset.mem_erase]
  tauto

lemma sum_sdiff_split {U : Finset String} (needed : Finset String) {a : String}
    (hU : a ∈ U) (ha : a ∉ needed) (w : String → Nat) :
    (U \ needed).sum w = w a + (U \ insert a needed).sum w := by
  rw [sdiff_insert_eq_erase]
  exact (Finset.add_sum_erase _ w (Finset.mem_sdiff.mpr ⟨hU, ha⟩)).symm

lemma closureAux_complete (fds : List FileDescriptorProto) (entry : String) :
    ∀ (fuel : Nat) (needed : Finset String) (queue : List String),
      (∀ x ∈ queue, x ∈ nameUniverse fds entry) →
      fuelPhi fds entry needed queue ≤ fuel →
      closedInv fds needed queue →
      (∀ x ∈ queue, x ∈ closureAux fds fuel needed queue) ∧
      closedInv fds (closureAux fds fuel needed queue) [] := by
  intro fuel
  induction fuel with
  | zero =>
    intro needed queue _ hfuel hinv
    have hq : queue = [] := by
      have : queue.length = 0 := by
        have := hfuel
        unfold fuelPhi at this
        omega
      exact List.length_eq_zero.mp this
    subst hq
    rw [closureAux]
    refine ⟨fun x hx => absurd hx (List.not_mem_nil x), hinv⟩
  | succ n ih =>
    intro needed queue hU hfuel hinv
    cases queue with
    | nil =>
      rw [closureAux]
      exact ⟨fun x hx => absurd hx (List.not_mem_nil x), hinv⟩
    | cons name rest =>
      have hnameU : name ∈ nameUniverse fds entry := hU name (List.mem_cons_self _ _)
      rw [closureAux]
      by_cases h : name ∈ needed
      · simp only [h, if_true]
        have hphi : fuelPhi fds entry needed rest ≤ n := by
          unfold fuelPhi at hfuel ⊢
          simp only [List.length_cons] at hfuel
          omega
        have hinv' : closedInv fds needed rest := by
          intro x hx f hf d hd
          rcases hinv x hx f hf d hd with hdn | hdq
          · exact Or.inl hdn
          · rcases List.mem_cons.mp hdq with hdq | hdq
            · exact Or.inl (hdq ▸ h)
            · exact Or.inr hdq
        obtain ⟨h1, h2⟩ := ih needed rest (fun y hy => hU y (List.mem_cons_of_mem _ hy)) hphi hinv'
        refine ⟨?_, h2⟩
        intro x hx
        rcases List.mem_cons.mp hx with hx | hx
        · exact subset_closureAux fds n needed rest (hx ▸ h)
        · exact h1 x hx
      · simp only [h, if_false]
        have hsplit := sum_sdiff_split needed hnameU h (fun x => 1 + degOut fds x)
        cases hb : byName fds name with
        | none =>
          have hdeg : degOut fds name = 0 := by unfold degOut; rw [hb]
          have hphi : fuelPhi fds entry (insert name needed) rest ≤ n := by
            unfold fuelPhi at hfuel ⊢
            simp only [List.length_cons] at hfuel
            rw [hsplit, hdeg] at hfuel
            omega
          have hinv' : closedInv fds (insert name needed) rest := by
            intro x hx f hf d hd
            rcases Finset.mem_insert.mp hx with hx | hx
            · subst hx; rw [hb] at hf; cases hf
            · rcases hinv x hx f hf d hd with hdn | hdq
              · exact Or.inl (Finset.mem_insert_of_mem hdn)
              · rcases List.mem_cons.mp hdq with hdq | hdq
                · exact Or.inl (hdq ▸ Finset.mem_insert_self _ _)
                · exact Or.inr hdq
          obtain ⟨h1, h2⟩ :=
            ih (insert name needed) rest (fun y hy => hU y (List.mem_cons_of_mem _ hy)) hphi hinv'
          refine ⟨?_, h2⟩
          intro x hx
          rcases List.mem_cons.mp hx with hx | hx
          · exact subset_closureAux fds n _ rest (hx ▸ Finset.mem_insert_self _ _)
          · exact h1 x hx
        | some f =>
          have hdeg : degOut fds name = f.dependency.length := by unfold degOut; rw [hb]
          have hphi : fuelPhi fds entry (insert name needed) (f.dependency.reverse ++ rest) ≤ n := by
            unfold fuelPhi at hfuel ⊢
            simp only [List.length_cons] at hfuel
            rw [hsplit, hdeg] at hfuel
            simp only [List.length_append, List.length_reverse]
            omega
          have hU' : ∀ y ∈ f.dependency.reverse ++ rest, y ∈ nameUniverse fds entry := by
            intro y hy
            rcases List.mem_append.mp hy with hy | hy
            · exact Finset.mem_insert_of_mem
                (mem_allDeps (byName_mem hb) (List.mem_reverse.mp hy))
            · exact hU y (List.mem_cons_of_mem _ hy)
          have hinv' : closedInv fds (insert name needed) (f.dependency.reverse ++ rest) := by
            intro x hx g hg d hd
            rcases Finset.mem_insert.mp hx with hx | hx
            · subst hx
              rw [hb] at hg
              cases hg
              exact Or.inr (List.mem_append.mpr (Or.inl (List.mem_reverse.mpr hd)))
            · rcases hinv x hx g hg d hd with hdn | hdq
              · exact Or.inl (Finset.mem_insert_of_mem hdn)
              · rcases List.mem_cons.mp hdq with hdq | hdq
                · exact Or.inl (hdq ▸ Finset.mem_insert_self _ _)
                · exact Or.inr (List.mem_append.mpr (Or.inr hdq))
          obtain ⟨h1, h2⟩ := ih (insert name needed) (f.dependency.reverse ++ rest) hU' hphi hinv'
          refine ⟨?_, h2⟩
          intro x hx
          rcases List.mem_cons.mp hx with hx | hx
          · exact subset_closureAux fds n _ _ (hx ▸ Finset.mem_insert_self _ _)
          · exact h1 x (List.mem_append.mpr (Or.inr hx))

lemma closureAux_mem_iff (fds : List FileDescriptorProto) (entry : String) (fuel : Nat)
    (hfuel : fuelPhi fds entry ∅ [entry] ≤ fuel) (x : String) :
    x ∈ closureAux fds fuel ∅ [entry] ↔ reaches fds entry x := by
  have hU : ∀ y ∈ [entry], y ∈ nameUniverse fds entry := by
    intro y hy
    rcases List.mem_cons.mp hy with hy | hy
    · exact hy ▸ Finset.mem_insert_self _ _
    · cases hy
  have hinv : closedInv fds ∅ [entry] := by
    intro y hy; cases hy
  obtain ⟨h1, h2⟩ := closureAux_complete fds entry fuel ∅ [entry] hU hfuel hinv
  constructor
  · intro hx
    refine closureAux_sound fds entry fuel ∅ [entry] ?_ ?_ x hx
    · intro y hy; cases hy
    · intro y hy
      rcases List.mem_cons.mp hy with hy | hy
      · exact hy ▸ Relation.ReflTransGen.refl
      · cases hy
  · intro hx
    induction hx with
    | refl => exact h1 entry (List.mem_cons_self _ _)
    | tail _ hstep ihm =>
      rename_i b c _
      obtain ⟨f, hbf, hcf⟩ := hstep
      rcases h2 b ihm f hbf c hcf with hc | hc
      · exact hc
      · cases hc

lemma collect_import_closure_mem_iff (fds : List FileDescriptorProto) (entry x : String) :
    x ∈ _collect_import_closure fds entry ↔ reaches fds entry x :=
  closureAux_mem_iff fds entry _ le_rfl x

/-- C1: the closure computed by `_collect_import_closure` always contains the
entry name, and its members are exactly the names connected to the entry by a
directed path of dependency edges, each edge taken from the dependency list of
a descriptor present in the set. -/
theorem collect_import_closure_spec (fds : List FileDescriptorProto) (entry : String) :
    entry ∈ _collect_import_closure fds entry ∧
      ∀ x, x ∈ _collect_import_closure fds entry ↔ reaches fds entry x := by
  refine ⟨?_, fun x => collect_import_closure_mem_iff fds entry x⟩
  exact (collect_import_closure_mem_iff fds entry entry).mpr Relation.ReflTransGen.refl

/-- The two-element dependency cycle A → B → A. -/
def cycFds : List FileDescriptorProto := [⟨"A", ["B"]⟩, ⟨"B", ["A"]⟩]

/-- C2: the worklist loop of `_collect_import_closure` terminates on every
finite descriptor set: its result is already stable at the potential bound,
so any further fuel leaves the result unchanged; in particular on the cyclic
set A → B → A with entry A it returns exactly the set containing A and B. -/
theorem collect_import_closure_terminates :
    (∀ (fds : List FileDescriptorProto) (entry : String) (fuel : Nat),
        fuelPhi fds entry ∅ [entry] ≤ fuel →
        closureAux fds fuel ∅ [entry] = _collect_import_closure fds entry) ∧
      _collect_import_closure cycFds "A" = ({"A", "B"} : Finset String) := by
  constructor
  · intro fds entry fuel hfuel
    ext x
    rw [closureAux_mem_iff fds entry fuel hfuel x, collect_import_closure_mem_iff]
  · decide

/-- Closed instance of C2's stabilisation statement at the cyclic two-element
descriptor set, with the fuel hypothesis discharged concretely. -/
theorem collect_import_closure_terminates_witness :
    fuelPhi cycFds "A" ∅ ["A"] ≤ 100 ∧
      closureAux cycFds 100 ∅ ["A"] = _collect_import_closure cycFds "A" :=
  ⟨by decide, collect_import_closure_terminates.1 cycFds "A" 100 (by decide)⟩

/-- Entry A depends on B, and B has no descriptor in the set. -/
def danglingFds : List FileDescriptorProto := [⟨"A", ["B"]⟩]

/-- C3: a dependency name with no descriptor in the set contributes no
outgoing edges (it is a leaf of the traversal), and for entry A with
dependency list [B] where B is absent the computed closure is exactly the
set containing A and B. -/
theorem collect_import_closure_dangling :
    (∀ (fds : List FileDescriptorProto) (b : String),
        byName fds b = none → ∀ d, ¬ depStep fds b d) ∧
      _collect_import_closure danglingFds "A" = ({"A", "B"} : Finset String) := by
  constructor
  · intro fds b hb d hstep
    obtain ⟨f, hf, _⟩ := hstep
    rw [hb] at hf
    cases hf
  · decide

/-- Closed instance of C3: in the dangling set, B has no descriptor, the edge
B → A does not exist, and the closure of entry A is the set containing A
and B. -/
theorem collect_import_closure_dangling_witness :
    byName danglingFds "B" = none ∧ ¬ depStep danglingFds "B" "A" ∧
      _collect_import_closure danglingFds "A" = ({"A", "B"} : Finset String) :=
  ⟨by decide, collect_import_closure_dangling.1 danglingFds "B" (by decide) "A",
    collect_import_closure_dangling.2⟩

/-- A filesystem: an association list from absolute paths to file contents.
Earlier entries shadow later ones, so overwriting is consing. -/
def FS : Type := List (String × String)

instance : DecidableEq FS := by unfold FS; infer_instance

/-- Read a path. -/
def lookupFS : FS → String → Option String
  | [], _ => none
  | (k, v) :: rest, p => if p = k then some v else lookupFS rest p

/-- Write a path (overwrite-by-shadowing, as `shutil.copy2` overwrites). -/
def setFS (fs : FS) (k v : String) : FS := (k, v) :: fs

@[simp] lemma lookupFS_setFS (fs : FS) (k v p : String) :
    lookupFS (setFS fs k v) p = if p = k then some v else lookupFS fs p := rfl

/-- `os.path.join(d, r)` for an absolute directory `d` and relative path `r`
with separator `"/"`. -/
def joinPath (d r : String) : String := d ++ "/" ++ r

lemma joinPath_right_injective {d r r' : String} (h : joinPath d r = joinPath d r') :
    r = r' := by
  unfold joinPath at h
  have hdata := congrArg String.data h
  simp only [String.data_append] at hdata
  exact String.ext (List.append_cancel_left hdata)


/-- Python's string comparison: lexicographic on Unicode code points.
`lexLe a b` decides `a <= b`. -/
def lexLe : List Char → List Char → Bool
  | [], _ => true
  | _ :: _, [] => false
  | a :: as, b :: bs =>
    if a.toNat < b.toNat then true
    else if b.toNat < a.toNat then false
    else lexLe as bs

/-- `a <= b` for relative paths, as Python's `sorted` compares strings. -/
def pathLe (a b : String) : Prop := lexLe a.data b.data = true

/-- Strict version of [pathLe]. -/
def pathLt (a b : String) : Prop := pathLe a b ∧ a ≠ b

instance : DecidableRel pathLe := fun a b => by unfold pathLe; infer_instance

instance : DecidableRel pathLt := fun a b => by unfold pathLt; infer_instance

lemma lexLe_refl : ∀ l : List Char, lexLe l l = true := by
  intro l
  induction l with
  | nil => rfl
  | cons a as ih =>
    simp only [lexLe]
    rw [if_neg (lt_irrefl a.toNat), if_neg (lt_irrefl a.toNat)]
    exact ih

lemma lexLe_total : ∀ l₁ l₂ : List Char, lexLe l₁ l₂ = true ∨ lexLe l₂ l₁ = true := by
  intro l₁
  induction l₁ with
  | nil => intro l₂; exact Or.inl rfl
  | cons a as ih =>
    intro l₂
    cases l₂ with
    | nil => exact Or.inr rfl
    | cons b bs =>
      by_cases hab : a.toNat < b.toNat
      · exact Or.inl (by simp only [lexLe]; rw [if_pos hab])
      · by_cases hba : b.toNat < a.toNat
        · exact Or.inr (by simp only [lexLe]; rw [if_pos hba])
        · rcases ih bs with h | h
          · exact Or.inl (by simp only [lexLe]; rw [if_neg hab, if_neg hba]; exact h)
          · exact Or.inr (by simp only [lexLe]; rw [if_neg hba, if_neg hab]; exact h)

lemma lexLe_trans : ∀ l₁ l₂ l₃ : List Char,
    lexLe l₁ l₂ = true → lexLe l₂ l₃ = true → lexLe l₁ l₃ = true := by
  intro l₁
  induction l₁ with
  | nil => intro l₂ l₃ _ _; rfl
  | cons a as ih =>
    intro l₂ l₃ h₁ h₂
    cases l₂ with
    | nil => simp [lexLe] at h₁
    | cons b bs =>
      cases l₃ with
      | nil => simp [lexLe] at h₂
      | cons c cs =>
        simp only [lexLe] at h₁ h₂ ⊢
        by_cases hab : a.toNat < b.toNat
        · by_cases hbc : b.toNat < c.toNat
          · rw [if_pos (lt_trans hab hbc)]
          · by_cases hcb : c.toNat < b.toNat
            · rw [if_neg hbc, if_pos hcb] at h₂
              simp at h₂
            · rw [if_pos (by omega : a.toNat < c.toNat)]
        · by_cases hba : b.toNat < a.toNat
          · rw [if_neg hab, if_pos hba] at h₁
            simp at h₁
          · by_cases hbc : b.toNat < c.toNat
            · rw [if_pos (by omega : a.toNat < c.toNat)]
            · by_cases hcb : c.toNat < b.toNat
              · rw [if_neg hbc, if_pos hcb] at h₂
                simp at h₂
              · rw [if_neg hab, if_neg hba] at h₁
                rw [if_neg hbc, if_neg hcb] at h₂
                rw [if_neg (by omega : ¬ a.toNat < c.toNat),
                  if_neg (by omega : ¬ c.toNat < a.toNat)]
                exact ih bs cs h₁ h₂

lemma lexLe_antisymm : ∀ l₁ l₂ : List Char,
    lexLe l₁ l₂ = true → lexLe l₂ l₁ = true → l₁ = l₂ := by
  intro l₁
  induction l₁ with
  | nil =>
    intro l₂ _ h₂
    cases l₂ with
    | nil => rfl
    | cons b bs => simp [lexLe] at h₂
  | cons a as ih =>
    intro l₂ h₁ h₂
    cases l₂ with
    | nil => simp [lexLe] at h₁
    | cons b bs =>
      simp only [lexLe] at h₁ h₂
      by_cases hab : a.toNat < b.toNat
      · rw [if_neg (by omega : ¬ b.toNat < a.toNat), if_pos hab] at h₂
        simp at h₂
      · by_cases hba : b.toNat < a.toNat
        · rw [if_neg hab, if_pos hba] at h₁
          simp at h₁
        · rw [if_neg hab, if_neg hba] at h₁
          rw [if_neg hba, if_neg hab] at h₂
          have hac : a = b := by
            apply Char.ext
            apply UInt32.toNat.inj
            unfold Char.toNat at hab hba
            omega
          rw [hac, ih bs h₁ h₂]

lemma pathLe_refl (a : String) : pathLe a a := lexLe_refl a.data

lemma pathLe_total (a b : String) : pathLe a b ∨ pathLe b a := lexLe_total a.data b.data

lemma pathLe_trans {a b c : String} (h₁ : pathLe a b) (h₂ : pathLe b c) : pathLe a c :=
  lexLe_trans a.data b.data c.data h₁ h₂

lemma pathLe_antisymm {a b : String} (h₁ : pathLe a b) (h₂ : pathLe b a) : a = b :=
  String.ext (lexLe_antisymm a.data b.data h₁ h₂)

instance : IsTotal String pathLe := ⟨pathLe_total⟩

instance : IsTrans String pathLe := ⟨fun _ _ _ => pathLe_trans⟩

instance : IsAntisymm String pathLe := ⟨fun _ _ => pathLe_antisymm⟩

instance : IsRefl String pathLe := ⟨pathLe_refl⟩

lemma pathLt_irrefl (a : String) : ¬ pathLt a a := fun h => h.2 rfl

lemma pathLe_of_pathLt {a b : String} (h : pathLt a b) : pathLe a b := h.1

lemma not_pathLt_of_pathLt {a b : String} (h : pathLt a b) : ¬ pathLt b a := by
  intro h2
  exact h.2 (pathLe_antisymm h.1 h2.1)

lemma pathLt_of_pathLt_of_pathLe {a b c : String} (h₁ : pathLt a b) (h₂ : pathLe b c) :
    pathLt a c := by
  refine ⟨pathLe_trans h₁.1 h₂, ?_⟩
  intro hac
  subst hac
  exact h₁.2 (pathLe_antisymm h₁.1 h₂)

/-- Python's `sorted` on a set of strings, as an executable function on the
underlying multiset: insertion sort is invariant under permutation of its
input, so it lifts through the quotient. -/
def sortMultiset (m : Multiset String) : List String :=
  Quot.liftOn m (List.insertionSort pathLe) (fun a b hab =>
    List.eq_of_perm_of_sorted
      (((List.perm_insertionSort _ a).trans hab).trans (List.perm_insertionSort _ b).symm)
      (List.sorted_insertionSort _ a) (List.sorted_insertionSort _ b))

/-- `sorted(files)` for a finite set of relative paths. -/
def sortFinset (s : Finset String) : List String := sortMultiset s.val

lemma sortMultiset_perm (m : Multiset String) : (sortMultiset m : Multiset String) = m :=
  Quot.inductionOn m (fun l => Quot.sound (List.perm_insertionSort _ l))

lemma mem_sortFinset {s : Finset String} {r : String} : r ∈ sortFinset s ↔ r ∈ s := by
  rw [show (r ∈ sortFinset s ↔ r ∈ (sortFinset s : Multiset String)) from
    (Multiset.mem_coe).symm]
  unfold sortFinset
  rw [sortMultiset_perm s.val]
  exact Iff.rfl

lemma sortMultiset_sorted (m : Multiset String) : List.Sorted pathLe (sortMultiset m) :=
  Quot.inductionOn m (fun l => List.sorted_insertionSort _ l)

lemma sortFinset_sorted (s : Finset String) : List.Sorted pathLe (sortFinset s) :=
  sortMultiset_sorted s.val

lemma sortFinset_nodup (s : Finset String) : (sortFinset s).Nodup := by
  have h : ((sortFinset s : Multiset String)).Nodup = (sortFinset s).Nodup :=
    propext Multiset.coe_nodup
  rw [← h]
  unfold sortFinset
  rw [sortMultiset_perm s.val]
  exact s.nodup

lemma sortFinset_pairwise_lt (s : Finset String) : (sortFinset s).Pairwise pathLt :=
  List.Pairwise.imp₂ (fun _ _ hle hne => ⟨hle, hne⟩) (sortFinset_sorted s)
    (sortFinset_nodup s)

/-- The `for relpath in sorted(files):` loop body of `_copy_files`, run on an
already-sorted list.  `shutil.copy2(src, dst)` raises `FileNotFoundError`
when the source is missing; the raised relpath is returned together with the
filesystem as left at that moment (no rollback), and the remaining paths are
not attempted. -/
def copyGo (base target : String) : List String → FS → FS × Option String
  | [], fs => (fs, none)
  | r :: rest, fs =>
    match lookupFS fs (joinPath base r) with
    | none => (fs, some r)
    | some c => copyGo base target rest (setFS fs (joinPath target r) c)

/-- `_copy_files(files, base_dir, target_dir)` of the source: copy each file
of the set, in lexicographically sorted order, from base to target.  Returns
the final filesystem and `some r` when the copy of relpath `r` raised. -/
def _copy_files (files : Finset String) (base target : String) (fs : FS) :
    FS × Option String :=
  copyGo base target (sortFinset files) fs

lemma copyGo_lookup_of_not_target (base target : String) :
    ∀ (l : List String) (fs : FS) (p : String),
      (∀ r ∈ l, p ≠ joinPath target r) →
      lookupFS (copyGo base target l fs).1 p = lookupFS fs p := by
  intro l
  induction l with
  | nil => intro fs p _; rfl
  | cons r rest ih =>
    intro fs p hp
    rw [copyGo]
    cases hsrc : lookupFS fs (joinPath base r) with
    | none => rfl
    | some c =>
      rw [ih _ p (fun r' hr' => hp r' (List.mem_cons_of_mem _ hr'))]
      simp only [lookupFS_setFS]
      rw [if_neg (hp r (List.mem_cons_self _ _))]

lemma copyGo_success (base target : String) :
    ∀ (l : List String) (fs : FS),
      l.Nodup →
      (∀ r ∈ l, ∀ r' ∈ l, joinPath target r' ≠ joinPath base r) →
      (copyGo base target l fs).2 = none →
      ∀ r ∈ l, ∃ c, lookupFS fs (joinPath base r) = some c ∧
        lookupFS (copyGo base target l fs).1 (joinPath target r) = some c := by
  intro l
  induction l with
  | nil => intro fs _ _ _ r hr; cases hr
  | cons a rest ih =>
    intro fs hnd hdisj hok r hr
    have hnda : a ∉ rest := (List.nodup_cons.mp hnd).1
    have hndr : rest.Nodup := (List.nodup_cons.mp hnd).2
    cases hsrc : lookupFS fs (joinPath base a) with
    | none => rw [copyGo, hsrc] at hok; cases hok
    | some c =>
      simp only [copyGo, hsrc] at hok ⊢
      rcases List.mem_cons.mp hr with hr | hr
      · subst hr
        refine ⟨c, hsrc, ?_⟩
        rw [copyGo_lookup_of_not_target base target rest _ _ ?_]
        · simp [lookupFS_setFS]
        · intro r' hr' heq
          exact hnda ((joinPath_right_injective heq) ▸ hr')
      · obtain ⟨c', hc'₁, hc'₂⟩ := ih (setFS fs (joinPath target a) c) hndr
          (fun x hx r' hr' => hdisj x (List.mem_cons_of_mem _ hx) r' (List.mem_cons_of_mem _ hr'))
          hok r hr
        refine ⟨c', ?_, hc'₂⟩
        rw [← hc'₁]
        simp only [lookupFS_setFS]
        rw [if_neg ?_]
        exact fun heq =>
          hdisj r (List.mem_cons_of_mem _ hr) a (List.mem_cons_self _ _) heq.symm

lemma copyGo_idem (base target : String) :
    ∀ (l : List String) (fs : FS),
      (∀ r ∈ l, lookupFS fs (joinPath target r) = lookupFS fs (joinPath base r)) →
      (∀ r ∈ l, (lookupFS fs (joinPath base r)).isSome) →
      (copyGo base target l fs).2 = none ∧
        ∀ p, lookupFS (copyGo base target l fs).1 p = lookupFS fs p := by
  intro l
  induction l with
  | nil => intro fs _ _; exact ⟨rfl, fun p => rfl⟩
  | cons a rest ih =>
    intro fs heq hsome
    obtain ⟨c, hc⟩ := Option.isSome_iff_exists.mp (hsome a (List.mem_cons_self _ _))
    simp only [copyGo, hc]
    have hext : ∀ p, lookupFS (setFS fs (joinPath target a) c) p = lookupFS fs p := by
      intro p
      simp only [lookupFS_setFS]
      by_cases hp : p = joinPath target a
      · rw [if_pos hp, hp, heq a (List.mem_cons_self _ _), hc]
      · rw [if_neg hp]
    obtain ⟨h1, h2⟩ := ih (setFS fs (joinPath target a) c)
      (fun r hr => by
        rw [hext (joinPath target r), hext (joinPath base r)]
        exact heq r (List.mem_cons_of_mem _ hr))
      (fun r hr => by
        rw [hext (joinPath base r)]
        exact hsome r (List.mem_cons_of_mem _ hr))
    exact ⟨h1, fun p => (h2 p).trans (hext p)⟩

/-- C8: `_copy_files` is idempotent.  If a run over `files` from `base` to
`target` succeeds, and no target path of the run coincides with a source path
(so the sources are unchanged by the copying), then running `_copy_files`
again on the produced filesystem succeeds and changes nothing: every path
reads the same after two runs as after one. -/
theorem copy_files_idempotent (files : Finset String) (base target : String)
    (fs fs₁ : FS)
    (hdisj : ∀ r ∈ files, ∀ r' ∈ files, joinPath target r' ≠ joinPath base r)
    (h₁ : _copy_files files base target fs = (fs₁, none)) :
    (_copy_files files base target fs₁).2 = none ∧
      ∀ p, lookupFS (_copy_files files base target fs₁).1 p = lookupFS fs₁ p := by
  unfold _copy_files at h₁ ⊢
  have hsortmem : ∀ r, r ∈ sortFinset files ↔ r ∈ files := fun r => mem_sortFinset
  have hnd : (sortFinset files).Nodup := sortFinset_nodup files
  have hdisj' : ∀ r ∈ sortFinset files, ∀ r' ∈ sortFinset files,
      joinPath target r' ≠ joinPath base r := by
    intro r hr r' hr'
    exact hdisj r ((hsortmem r).mp hr) r' ((hsortmem r').mp hr')
  have hok : (copyGo base target (sortFinset files) fs).2 = none := by rw [h₁]
  have hsucc := copyGo_success base target (sortFinset files) fs hnd hdisj' hok
  have hsrc_pres : ∀ r ∈ sortFinset files,
      lookupFS fs₁ (joinPath base r) = lookupFS fs (joinPath base r) := by
    intro r hr
    rw [show fs₁ = (copyGo base target (sortFinset files) fs).1 by rw [h₁]]
    exact copyGo_lookup_of_not_target base target _ fs (joinPath base r)
      (fun r' hr' => (hdisj' r hr r' hr').symm)
  refine copyGo_idem base target (sortFinset files) fs₁ ?_ ?_
  · intro r hr
    obtain ⟨c, hc₁, hc₂⟩ := hsucc r hr
    rw [hsrc_pres r hr, hc₁, show fs₁ = (copyGo base target (sortFinset files) fs).1 by
      rw [h₁]] at *
    rw [hc₂, hc₁]
  · intro r hr
    obtain ⟨c, hc₁, _⟩ := hsucc r hr
    rw [hsrc_pres r hr, hc₁]
    rfl

lemma copyGo_first_missing (base target : String) :
    ∀ (l : List String) (fs : FS) (r₀ : String),
      l.Pairwise pathLt →
      r₀ ∈ l →
      lookupFS fs (joinPath base r₀) = none →
      (∀ r ∈ l, pathLt r r₀ → (lookupFS fs (joinPath base r)).isSome) →
      (∀ a ∈ l, pathLe a r₀ → ∀ b ∈ l, pathLt b r₀ → joinPath target b ≠ joinPath base a) →
      (copyGo base target l fs).2 = some r₀ ∧
        (∀ r ∈ l, pathLt r r₀ →
          lookupFS (copyGo base target l fs).1 (joinPath target r) =
            lookupFS fs (joinPath base r)) ∧
        (∀ r ∈ l, pathLe r₀ r →
          lookupFS (copyGo base target l fs).1 (joinPath target r) =
            lookupFS fs (joinPath target r)) := by
  intro l
  induction l with
  | nil => intro fs r₀ _ hr₀; cases hr₀
  | cons a rest ih =>
    intro fs r₀ hpw hr₀ hmiss hsome hdisj
    have hpwa : ∀ x ∈ rest, pathLt a x := (List.pairwise_cons.mp hpw).1
    have hpwr : rest.Pairwise pathLt := (List.pairwise_cons.mp hpw).2
    by_cases ha : a = r₀
    · subst ha
      have hrest : ∀ r ∈ rest, pathLt a r := hpwa
      simp only [copyGo, hmiss]
      refine ⟨True.intro, ?_, fun r _ _ => True.intro⟩
      intro r hr hlt
      rcases List.mem_cons.mp hr with hr | hr
      · exact absurd (hr ▸ hlt) (pathLt_irrefl a)
      · exact absurd hlt (not_pathLt_of_pathLt (hrest r hr))
    · have hr₀rest : r₀ ∈ rest := by
        rcases List.mem_cons.mp hr₀ with h | h
        · exact absurd h.symm ha
        · exact h
      have halt : pathLt a r₀ := hpwa r₀ hr₀rest
      obtain ⟨c, hc⟩ := Option.isSome_iff_exists.mp
        (hsome a (List.mem_cons_self _ _) halt)
      simp only [copyGo, hc]
      have hta_ne_base : ∀ x ∈ a :: rest, pathLe x r₀ → joinPath target a ≠ joinPath base x :=
        fun x hx hxle => hdisj x hx hxle a (List.mem_cons_self _ _) halt
      have hlook₂ : ∀ p, lookupFS (setFS fs (joinPath target a) c) p =
          if p = joinPath target a then some c else lookupFS fs p := fun p => rfl
      obtain ⟨ih1, ih2, ih3⟩ := ih (setFS fs (joinPath target a) c) r₀ hpwr hr₀rest
        (by
          rw [hlook₂, if_neg]
          · exact hmiss
          · exact fun h =>
              hta_ne_base r₀ (List.mem_cons_of_mem _ hr₀rest) (pathLe_refl r₀) h.symm)
        (by
          intro r hr hlt
          rw [hlook₂, if_neg]
          · exact hsome r (List.mem_cons_of_mem _ hr) hlt
          · exact fun h =>
              hta_ne_base r (List.mem_cons_of_mem _ hr) (pathLe_of_pathLt hlt) h.symm)
        (by
          intro x hx hxle y hy hylt
          exact hdisj x (List.mem_cons_of_mem _ hx) hxle y (List.mem_cons_of_mem _ hy) hylt)
      refine ⟨ih1, ?_, ?_⟩
      · intro r hr hlt
        rcases List.mem_cons.mp hr with hr | hr
        · subst hr
          rw [copyGo_lookup_of_not_target base target rest _ _ ?_]
          · rw [hlook₂, if_pos rfl, hc]
          · intro r' hr' heq
            exact absurd (joinPath_right_injective heq) (hpwa r' hr').2
        · rw [ih2 r hr hlt, hlook₂, if_neg]
          exact fun h =>
            hta_ne_base r (List.mem_cons_of_mem _ hr) (pathLe_of_pathLt hlt) h.symm
      · intro r hr hge
        rcases List.mem_cons.mp hr with hr | hr
        · exact absurd (pathLt_of_pathLt_of_pathLe halt (hr ▸ hge)) (pathLt_irrefl a)
        · rw [ih3 r hr hge, hlook₂, if_neg]
          exact fun h => absurd (joinPath_right_injective h).symm (hpwa r hr).2

/-- Failure modes of the `subprocess.run(cmd, check=True, ...)` call:
`FileNotFoundError` when the protoc executable is missing, or
`CalledProcessError` carrying the compiler's error stream. -/
inductive ProtocErr where
  | notFound
  | failed (stderr : String)
deriving DecidableEq

/-- The outcome `_run_protoc` hands to `main`: the two subprocess failures
(caught by `main`), a parse exception from `ParseFromString` (not caught),
or the parsed descriptor list. -/
inductive ProtocOutcome where
  | notFound
  | failed (stderr : String)
  | parseRaise (msg : String)
  | ok (fds : List FileDescriptorProto)
deriving DecidableEq

/-- The externally visible steps `_run_protoc` performs: creating the
temporary descriptor file, running the compiler, reading the file back and
attempting its removal (recording whether `os.remove` succeeded). -/
inductive RunEvent where
  | createTmp
  | runProtoc
  | readTmp
  | removeTmp (ok : Bool)
deriving DecidableEq

/-- `_run_protoc(proto_path, entry_relpath)`, abstracted over the behaviour
of the subprocess (`sub`), of the descriptor parsing (`parsed`) and of the
final `os.remove` (`removeOk`).  The `finally` block always attempts the
removal, and an `OSError` from it is swallowed by the bare
`try/except OSError: pass`. -/
def _run_protoc (sub : Except ProtocErr Unit)
    (parsed : Except String (List FileDescriptorProto)) (removeOk : Bool) :
    ProtocOutcome × List RunEvent :=
  match sub with
  | .error .notFound =>
    (.notFound, [.createTmp, .runProtoc, .removeTmp removeOk])
  | .error (.failed e) =>
    (.failed e, [.createTmp, .runProtoc, .removeTmp removeOk])
  | .ok _ =>
    match parsed with
    | .error m =>
      (.parseRaise m, [.createTmp, .runProtoc, .readTmp, .removeTmp removeOk])
    | .ok fds =>
      (.ok fds, [.createTmp, .runProtoc, .readTmp, .removeTmp removeOk])

/-- C7: on every execution path of `_run_protoc` — compiler missing, compiler
failure, parse failure or success — the temporary descriptor file's removal is
attempted exactly once, as the final step; and a failure of the removal itself
is invisible: the returned outcome is the same whether the removal succeeded
or not, so no effect beyond the one subprocess execution persists. -/
theorem run_protoc_cleanup (sub : Except ProtocErr Unit)
    (parsed : Except String (List FileDescriptorProto)) (removeOk : Bool) :
    (∃ pre, (_run_protoc sub parsed removeOk).2 = pre ++ [RunEvent.removeTmp removeOk] ∧
        ∀ b, RunEvent.removeTmp b ∉ pre) ∧
      (_run_protoc sub parsed true).1 = (_run_protoc sub parsed false).1 := by
  rcases sub with e | u
  · rcases e with _ | e <;>
      exact ⟨⟨[.createTmp, .runProtoc], rfl, by intro b hb; simp [_run_protoc] at hb⟩, rfl⟩
  · rcases parsed with m | fds <;>
      exact ⟨⟨[.createTmp, .runProtoc, .readTmp], rfl, by intro b hb; simp [_run_protoc] at hb⟩,
        rfl⟩

/-- Python's `str.startswith(pre)`: `pre` is a character-list prefix. -/
def pyStartsWith (s pre : String) : Bool := pre.data.isPrefixOf s.data

/-- `os.path.relpath(proto_path, base_dir)` in the case `main` uses it:
`proto_path` starts with `base_dir + os.sep`, so the relative path is what
follows that prefix. -/
def relpathUnder (proto base : String) : String := proto.drop (base.length + 1)

/-- How `main` finished: `return code` reaching the `SystemExit`, or an
exception (here: the copy phase's `FileNotFoundError` carrying the missing
source path, or a descriptor parse error) propagating out unhandled. -/
inductive MainResult where
  | exited (code : Nat)
  | raised (msg : String)
deriving DecidableEq

/-- Observable behaviour of one `main` run: its result, the lines printed to
stdout and stderr, the final filesystem, and whether `_run_protoc` (hence the
subprocess and the temporary file) was ever invoked. -/
structure MainOut where
  result : MainResult
  stdout : List String
  stderr : List String
  fs : FS
  protocInvoked : Bool
deriving DecidableEq

/-- `main()` of the source, after `argparse` and `os.path.abspath`: the three
path arguments are already absolute, the protoc invocation's outcome is the
`protoc` parameter (design note: the extractor sits behind a narrow
interface), and the filesystem is threaded explicitly. -/
def mainRun (protoPath baseDir targetDir : String) (protoc : ProtocOutcome) (fs : FS) :
    MainOut :=
  if pyStartsWith protoPath (baseDir ++ "/") then
    match protoc with
    | .notFound => ⟨.exited 2, [], ["protoc not found. Please install protoc."], fs, true⟩
    | .failed err => ⟨.exited 2, [], ["protoc failed:\n" ++ err], fs, true⟩
    | .parseRaise m => ⟨.raised m, [], [], fs, true⟩
    | .ok fds =>
      let needed := _collect_import_closure fds (relpathUnder protoPath baseDir)
      match (_copy_files needed baseDir targetDir fs).2 with
      | some r =>
        ⟨.raised (joinPath baseDir r), [], [], (_copy_files needed baseDir targetDir fs).1, true⟩
      | none =>
        ⟨.exited 0, sortFinset needed, [], (_copy_files needed baseDir targetDir fs).1, true⟩
  else
    ⟨.exited 2, [], ["Entry proto must be under base-dir."], fs, false⟩

lemma isPrefixOf_length_le : ∀ (l₁ l₂ : List Char), l₁.isPrefixOf l₂ = true →
    l₁.length ≤ l₂.length := by
  intro l₁
  induction l₁ with
  | nil => intro l₂ _; simp
  | cons a t ih =>
    intro l₂ h
    cases l₂ with
    | nil => simp [List.isPrefixOf] at h
    | cons b t₂ =>
      simp only [List.isPrefixOf, Bool.and_eq_true] at h
      have := ih t₂ h.2
      simp only [List.length_cons]
      omega

lemma pyStartsWith_self_sep (b : String) : pyStartsWith b (b ++ "/") = false := by
  unfold pyStartsWith
  by_contra h
  simp only [Bool.not_eq_false] at h
  have hlen := isPrefixOf_length_le _ _ h
  rw [String.data_append, List.length_append] at hlen
  have : ("/" : String).data.length = 1 := by decide
  omega

lemma mainRun_not_under {p b : String} (t : String) (pc : ProtocOutcome) (fs : FS)
    (h : pyStartsWith p (b ++ "/") = false) :
    mainRun p b t pc fs =
      ⟨.exited 2, [], ["Entry proto must be under base-dir."], fs, false⟩ := by
  unfold mainRun
  rw [if_neg]
  rw [h]
  exact Bool.false_ne_true

lemma mainRun_protocInvoked (p b t : String) (pc : ProtocOutcome) (fs : FS) :
    (mainRun p b t pc fs).protocInvoked = pyStartsWith p (b ++ "/") := by
  by_cases h : pyStartsWith p (b ++ "/") = true
  · rw [h]
    unfold mainRun
    rw [if_pos h]
    cases pc with
    | notFound => rfl
    | failed e => rfl
    | parseRaise m => rfl
    | ok fds =>
      dsimp only
      split <;> rfl
  · rw [Bool.not_eq_true] at h
    rw [h, mainRun_not_under t pc fs h]

/-- C4: when the entry proto's absolute path is not under the base directory
(it does not start with the base directory followed by the path separator),
`main` prints the usage message to stderr, returns exit code 2, prints nothing
to stdout, leaves the filesystem untouched, and never invokes `_run_protoc`
(so no subprocess, no temporary file, no copy). -/
theorem main_rejects_entry_outside_base (p b t : String) (pc : ProtocOutcome) (fs : FS)
    (h : pyStartsWith p (b ++ "/") = false) :
    mainRun p b t pc fs =
      ⟨.exited 2, [], ["Entry proto must be under base-dir."], fs, false⟩ :=
  mainRun_not_under t pc fs h

/-- Closed instance of C4: a concrete entry path outside the base directory is
rejected with exit code 2, the usage message, and no side effects. -/
theorem main_rejects_entry_outside_base_witness :
    pyStartsWith "/p/x.proto" ("/q" ++ "/") = false ∧
      mainRun "/p/x.proto" "/q" "/t" ProtocOutcome.notFound ([] : FS) =
        ⟨.exited 2, [], ["Entry proto must be under base-dir."], ([] : FS), false⟩ :=
  ⟨by decide,
    main_rejects_entry_outside_base "/p/x.proto" "/q" "/t" ProtocOutcome.notFound ([] : FS)
      (by decide)⟩

/-- C10: the containment check of `main` is exactly the string-prefix test
`proto_path.startswith(base_dir + os.sep)` on the normalised absolute paths:
the run proceeds to the compiler precisely when the prefix test succeeds; and
an entry whose absolute path equals the base directory fails the test (the
base directory plus separator is one character longer), so it is rejected
with exit code 2 and the usage message. -/
theorem main_containment_is_prefix_test :
    (∀ (p b t : String) (pc : ProtocOutcome) (fs : FS),
        (mainRun p b t pc fs).protocInvoked = pyStartsWith p (b ++ "/")) ∧
      ∀ (b t : String) (pc : ProtocOutcome) (fs : FS),
        (mainRun b b t pc fs).result = .exited 2 ∧
          (mainRun b b t pc fs).stderr = ["Entry proto must be under base-dir."] := by
  refine ⟨mainRun_protocInvoked, ?_⟩
  intro b t pc fs
  rw [mainRun_not_under t pc fs (pyStartsWith_self_sep b)]
  exact ⟨rfl, rfl⟩


lemma mainRun_eq_notFound {p b : String} (t : String) (fs : FS)
    (h : pyStartsWith p (b ++ "/") = true) :
    mainRun p b t .notFound fs =
      ⟨.exited 2, [], ["protoc not found. Please install protoc."], fs, true⟩ := by
  unfold mainRun
  rw [if_pos h]

lemma mainRun_eq_failed {p b : String} (t : String) (e : String) (fs : FS)
    (h : pyStartsWith p (b ++ "/") = true) :
    mainRun p b t (.failed e) fs =
      ⟨.exited 2, [], ["protoc failed:\n" ++ e], fs, true⟩ := by
  unfold mainRun
  rw [if_pos h]

lemma mainRun_eq_parseRaise {p b : String} (t : String) (m : String) (fs : FS)
    (h : pyStartsWith p (b ++ "/") = true) :
    mainRun p b t (.parseRaise m) fs = ⟨.raised m, [], [], fs, true⟩ := by
  unfold mainRun
  rw [if_pos h]

lemma mainRun_eq_ok_none {p b t : String} {fds : List FileDescriptorProto} {fs : FS}
    (h : pyStartsWith p (b ++ "/") = true)
    (hc : (_copy_files (_collect_import_closure fds (relpathUnder p b)) b t fs).2 = none) :
    mainRun p b t (.ok fds) fs =
      ⟨.exited 0, sortFinset (_collect_import_closure fds (relpathUnder p b)), [],
        (_copy_files (_collect_import_closure fds (relpathUnder p b)) b t fs).1, true⟩ := by
  unfold mainRun
  rw [if_pos h]
  dsimp only
  split
  · next r heq => rw [hc] at heq; cases heq
  · rfl

lemma mainRun_eq_ok_some {p b t : String} {fds : List FileDescriptorProto} {fs : FS}
    {r : String}
    (h : pyStartsWith p (b ++ "/") = true)
    (hc : (_copy_files (_collect_import_closure fds (relpathUnder p b)) b t fs).2 = some r) :
    mainRun p b t (.ok fds) fs =
      ⟨.raised (joinPath b r), [], [],
        (_copy_files (_collect_import_closure fds (relpathUnder p b)) b t fs).1, true⟩ := by
  unfold mainRun
  rw [if_pos h]
  dsimp only
  split
  · next r' heq =>
    rw [hc] at heq
    cases heq
    rfl
  · next heq => rw [hc] at heq; cases heq

/-- C5: `main` returns exit code 0 on success; it returns exit code 2 in
exactly three failure cases — the entry proto not under base-dir, the compiler
executable missing (with the message instructing installation on stderr), and
the compiler invocation failing (with the compiler's error-stream text relayed
to stderr).  A parse or copy exception is not an exit code. -/
theorem main_exit_codes (p b t : String) (pc : ProtocOutcome) (fs : FS) :
    ((mainRun p b t pc fs).result = .exited 2 ↔
        pyStartsWith p (b ++ "/") = false ∨ pc = .notFound ∨ ∃ e, pc = .failed e) ∧
      (pyStartsWith p (b ++ "/") = true → pc = .notFound →
        (mainRun p b t pc fs).stderr = ["protoc not found. Please install protoc."]) ∧
      (∀ e, pyStartsWith p (b ++ "/") = true → pc = .failed e →
        (mainRun p b t pc fs).stderr = ["protoc failed:\n" ++ e]) ∧
      (∀ fds, pyStartsWith p (b ++ "/") = true → pc = .ok fds →
        (_copy_files (_collect_import_closure fds (relpathUnder p b)) b t fs).2 = none →
        (mainRun p b t pc fs).result = .exited 0) := by
  refine ⟨?_, ?_, ?_, ?_⟩
  · by_cases h : pyStartsWith p (b ++ "/") = true
    · cases pc with
      | notFound => rw [mainRun_eq_notFound t fs h]; simp [h]
      | failed e => rw [mainRun_eq_failed t e fs h]; simp [h]
      | parseRaise m => rw [mainRun_eq_parseRaise t m fs h]; simp [h]
      | ok fds =>
        rcases hc : (_copy_files (_collect_import_closure fds (relpathUnder p b)) b t fs).2
          with _ | r
        · rw [mainRun_eq_ok_none h hc]; simp [h]
        · rw [mainRun_eq_ok_some h hc]; simp [h]
    · rw [Bool.not_eq_true] at h
      rw [mainRun_not_under t pc fs h]
      simp [h]
  · intro h hpc
    subst hpc
    rw [mainRun_eq_notFound t fs h]
  · intro e h hpc
    subst hpc
    rw [mainRun_eq_failed t e fs h]
  · intro fds h hpc hcopy
    subst hpc
    rw [mainRun_eq_ok_none h hcopy]

/-- Closed instance of C5: with a concrete entry under the base directory and
a missing compiler, `main` exits with code 2 carrying the installation hint;
with the compiler succeeding and the copy succeeding, it exits with code 0. -/
theorem main_exit_codes_witness :
    (mainRun "/b/a.proto" "/b" "/t" ProtocOutcome.notFound ([] : FS)).result =
        .exited 2 ∧
      (mainRun "/b/a.proto" "/b" "/t" ProtocOutcome.notFound ([] : FS)).stderr =
        ["protoc not found. Please install protoc."] ∧
      (mainRun "/b/a.proto" "/b" "/t" (ProtocOutcome.ok [⟨"a.proto", []⟩])
          ([("/b/a.proto", "c")] : FS)).result = .exited 0 :=
  ⟨(main_exit_codes "/b/a.proto" "/b" "/t" ProtocOutcome.notFound ([] : FS)).1.mpr
      (Or.inr (Or.inl rfl)),
    (main_exit_codes "/b/a.proto" "/b" "/t" ProtocOutcome.notFound ([] : FS)).2.1
      (by decide) rfl,
    (main_exit_codes "/b/a.proto" "/b" "/t" (ProtocOutcome.ok [⟨"a.proto", []⟩])
        ([("/b/a.proto", "c")] : FS)).2.2.2 [⟨"a.proto", []⟩] (by decide) rfl (by decide)⟩

/-- C6: on a successful run `main` prints on stdout exactly the members of the
computed closure — the same set handed to the copy phase — one per line, in
lexicographically sorted order, and nothing else; and it exits with code 0. -/
theorem main_success_output (p b t : String) (fds : List FileDescriptorProto) (fs : FS)
    (h : pyStartsWith p (b ++ "/") = true)
    (hcopy : (_copy_files (_collect_import_closure fds (relpathUnder p b)) b t fs).2 = none) :
    (mainRun p b t (.ok fds) fs).stdout =
        sortFinset (_collect_import_closure fds (relpathUnder p b)) ∧
      List.Sorted pathLe (mainRun p b t (.ok fds) fs).stdout ∧
      (∀ r, r ∈ (mainRun p b t (.ok fds) fs).stdout ↔
        r ∈ _collect_import_closure fds (relpathUnder p b)) ∧
      (mainRun p b t (.ok fds) fs).result = .exited 0 := by
  rw [mainRun_eq_ok_none h hcopy]
  exact ⟨rfl, sortFinset_sorted _, fun r => mem_sortFinset, rfl⟩

/-- Closed instance of C6: a concrete successful run prints exactly the sorted
closure and exits 0. -/
theorem main_success_output_witness :
    pyStartsWith "/b/a.proto" ("/b" ++ "/") = true ∧
      (_copy_files (_collect_import_closure [⟨"a.proto", []⟩]
          (relpathUnder "/b/a.proto" "/b")) "/b" "/t" [("/b/a.proto", "c")]).2 = none ∧
      ((mainRun "/b/a.proto" "/b" "/t" (.ok [⟨"a.proto", []⟩])
            [("/b/a.proto", "c")]).stdout =
          sortFinset (_collect_import_closure [⟨"a.proto", []⟩]
            (relpathUnder "/b/a.proto" "/b")) ∧
        List.Sorted pathLe (mainRun "/b/a.proto" "/b" "/t" (.ok [⟨"a.proto", []⟩])
          [("/b/a.proto", "c")]).stdout ∧
        (∀ r, r ∈ (mainRun "/b/a.proto" "/b" "/t" (.ok [⟨"a.proto", []⟩])
            [("/b/a.proto", "c")]).stdout ↔
          r ∈ _collect_import_closure [⟨"a.proto", []⟩] (relpathUnder "/b/a.proto" "/b")) ∧
        (mainRun "/b/a.proto" "/b" "/t" (.ok [⟨"a.proto", []⟩])
          [("/b/a.proto", "c")]).result = .exited 0) :=
  ⟨by decide, by decide,
    main_success_output "/b/a.proto" "/b" "/t" [⟨"a.proto", []⟩] [("/b/a.proto", "c")]
      (by decide) (by decide)⟩

/-- Closed instance of C8: after one successful copy of one file, a second run
succeeds and leaves every path of the filesystem unchanged. -/
theorem copy_files_idempotent_witness :
    (∀ r ∈ ({"a"} : Finset String), ∀ r' ∈ ({"a"} : Finset String),
        joinPath "/t" r' ≠ joinPath "/b" r) ∧
      _copy_files {"a"} "/b" "/t" [("/b/a", "x")] = ([("/t/a", "x"), ("/b/a", "x")], none) ∧
      ((_copy_files {"a"} "/b" "/t" [("/t/a", "x"), ("/b/a", "x")]).2 = none ∧
        ∀ p, lookupFS (_copy_files {"a"} "/b" "/t" [("/t/a", "x"), ("/b/a", "x")]).1 p =
          lookupFS [("/t/a", "x"), ("/b/a", "x")] p) :=
  ⟨by decide, by decide,
    copy_files_idempotent {"a"} "/b" "/t" [("/b/a", "x")] [("/t/a", "x"), ("/b/a", "x")]
      (by decide) (by decide)⟩

/-- C9: when some relative path of the closure has no source file under the
base directory, `_copy_files` raises at the first such path in sorted order:
paths sorted before it have already been copied (their targets hold the
source contents, not rolled back), targets of paths from the failing one on
are untouched; and `main` does not catch the exception — it propagates as a
raised `FileNotFoundError` for the missing source path, with nothing printed
on stdout. -/
theorem copy_files_raises_on_first_missing :
    (∀ (files : Finset String) (base target : String) (fs : FS) (r₀ : String),
        r₀ ∈ files →
        lookupFS fs (joinPath base r₀) = none →
        (∀ r ∈ files, pathLt r r₀ → (lookupFS fs (joinPath base r)).isSome) →
        (∀ a ∈ files, pathLe a r₀ → ∀ b ∈ files, pathLt b r₀ →
          joinPath target b ≠ joinPath base a) →
        (_copy_files files base target fs).2 = some r₀ ∧
          (∀ r ∈ files, pathLt r r₀ →
            lookupFS (_copy_files files base target fs).1 (joinPath target r) =
              lookupFS fs (joinPath base r)) ∧
          (∀ r ∈ files, pathLe r₀ r →
            lookupFS (_copy_files files base target fs).1 (joinPath target r) =
              lookupFS fs (joinPath target r))) ∧
      ∀ (p b t : String) (fds : List FileDescriptorProto) (fs : FS) (r : String),
        pyStartsWith p (b ++ "/") = true →
        (_copy_files (_collect_import_closure fds (relpathUnder p b)) b t fs).2 = some r →
        (mainRun p b t (.ok fds) fs).result = .raised (joinPath b r) ∧
          (mainRun p b t (.ok fds) fs).stdout = [] := by
  constructor
  · intro files base target fs r₀ hr₀ hmiss hsome hdisj
    have hmemiff : ∀ r : String, r ∈ sortFinset files ↔ r ∈ files := fun r => mem_sortFinset
    obtain ⟨h1, h2, h3⟩ := copyGo_first_missing base target (sortFinset files) fs r₀
      (sortFinset_pairwise_lt files) ((hmemiff r₀).mpr hr₀) hmiss
      (fun r hr hlt => hsome r ((hmemiff r).mp hr) hlt)
      (fun a ha hale y hy hylt =>
        hdisj a ((hmemiff a).mp ha) hale y ((hmemiff y).mp hy) hylt)
    exact ⟨h1, fun r hr hlt => h2 r ((hmemiff r).mpr hr) hlt,
      fun r hr hge => h3 r ((hmemiff r).mpr hr) hge⟩
  · intro p b t fds fs r h hc
    rw [mainRun_eq_ok_some h hc]
    exact ⟨rfl, rfl⟩

/-- Closed instance of C9: with sources for `a` but not `c`, the copy of the
set containing a and c raises at `c` after copying `a`; and a concrete `main`
run whose copy phase fails raises the missing source path. -/
theorem copy_files_raises_on_first_missing_witness :
    ((_copy_files {"a", "c"} "/b" "/t" [("/b/a", "x")]).2 = some "c" ∧
        (∀ r ∈ ({"a", "c"} : Finset String), pathLt r "c" →
          lookupFS (_copy_files {"a", "c"} "/b" "/t" [("/b/a", "x")]).1 (joinPath "/t" r) =
            lookupFS [("/b/a", "x")] (joinPath "/b" r)) ∧
        (∀ r ∈ ({"a", "c"} : Finset String), pathLe "c" r →
          lookupFS (_copy_files {"a", "c"} "/b" "/t" [("/b/a", "x")]).1 (joinPath "/t" r) =
            lookupFS [("/b/a", "x")] (joinPath "/t" r))) ∧
      ((mainRun "/b/a.proto" "/b" "/t" (.ok [⟨"a.proto", []⟩]) ([] : FS)).result =
          .raised (joinPath "/b" "a.proto") ∧
        (mainRun "/b/a.proto" "/b" "/t" (.ok [⟨"a.proto", []⟩]) ([] : FS)).stdout = []) :=
  ⟨copy_files_raises_on_first_missing.1 {"a", "c"} "/b" "/t" [("/b/a", "x")] "c"
      (by decide) (by decide) (by decide) (by decide),
    copy_files_raises_on_first_missing.2 "/b/a.proto" "/b" "/t" [⟨"a.proto", []⟩] ([] : FS)
      "a.proto" (by decide) (by decide)⟩
